import Mathlib

/-!
Verification of the `picross` repository (nonogram board library).

The development shallowly embeds the three Rust source files:
* `src/lib.rs`    : the `Cell` / `Picross` data model and the validator `is_valid`
* `src/parse.rs`  : the tokenizing parser `parse` and the clue parser `get_specs`
* `src/display.rs`: the ASCII renderer (`specs_to_strings`, `max_len_non_empty`,
  `Display::fmt` / `to_string`)

Conventions of the embedding:
* Rust `usize` values are `Nat`; `str::parse::<usize>` is modelled including its
  overflow failure, with `usize` taken as 64 bits (`value < 2^64`).
* Rust strings are modelled at character granularity as `List Char` (all inputs
  exercised by the specification are ASCII, where byte and char indexing agree).
* Panicking code is embedded as `Option`/`Except` so that a panic is a `none` /
  `.error` result; total code is embedded as total functions.
-/

/-- The `Cell` type of `lib.rs`: `Unknown`, `Black` (filled) or `White` (empty). -/
inductive Cell where
  | Unknown
  | Black
  | White
deriving DecidableEq

/-- The `Picross` board of `lib.rs`: dimensions, row/column specifications and
the cell grid, addressed `cells[y][x]`. -/
structure Picross where
  height : Nat
  length : Nat
  row_spec : List (List Nat)
  col_spec : List (List Nat)
  cells : List (List Cell)
deriving DecidableEq

/-- Error kinds of the parser.  The Rust code signals these situations by
panicking with a distinguishing message; the spec names the same four classes
`MissingField`, `InvalidInteger`, `InvalidClueSyntax` and `TokenCountMismatch`,
and the embedding returns them as `Except` error values. -/
inductive FormatError where
  | MissingField (field : List Char)
  | InvalidInteger (context : List Char)
  | InvalidClueSyntax (token : List Char)
  | TokenCountMismatch
deriving DecidableEq

instance {ε α : Type} [DecidableEq ε] [DecidableEq α] : DecidableEq (Except ε α) := fun x y =>
  match x, y with
  | .ok a, .ok b =>
    if h : a = b then .isTrue (by rw [h]) else .isFalse (by intro hh; cases hh; exact h rfl)
  | .error a, .error b =>
    if h : a = b then .isTrue (by rw [h]) else .isFalse (by intro hh; cases hh; exact h rfl)
  | .ok _, .error _ => .isFalse (by intro hh; cases hh)
  | .error _, .ok _ => .isFalse (by intro hh; cases hh)

/-- Decimal value of a digit string (most significant first), as accumulated by
Rust's `usize::from_str` digit loop. -/
def digitsVal (d : List Char) : Nat :=
  d.foldl (fun a c => 10 * a + (c.toNat - 48)) 0

/-- The digit part of a `usize` token: the token with its optional leading
`'+'` sign stripped, as done by Rust's integer `from_str`. -/
def stripPlus (t : List Char) : List Char :=
  match t with
  | '+' :: r => r
  | _ => t

/-- Embedding of Rust `str::parse::<usize>()`: an optional leading `'+'`, then
one or more ASCII digits; fails (`none`) on anything else and on overflow of a
64-bit `usize`.  Rust checks overflow at each step of the digit loop, which is
equivalent to the final bound because the accumulated value never decreases. -/
def parseUsize (s : List Char) : Option Nat :=
  let digits := stripPlus s
  if digits.isEmpty then none
  else if digits.all (fun c => c.isDigit) then
    if digitsVal digits < 18446744073709551616 then some (digitsVal digits) else none
  else none

/-- Embedding of Rust `str::split(',')` on a character list: splits at every
comma, keeping empty pieces (`"a,,b"` gives three pieces). -/
def splitComma : List Char → List (List Char)
  | [] => [[]]
  | ',' :: r => [] :: splitComma r
  | c :: r =>
    match splitComma r with
    | [] => [[c]]
    | t :: ts => (c :: t) :: ts

/-- Monadic map for `Except`, stopping at the first error: the embedding of
`iterator.map(f).collect()` where `f` may panic. -/
def mapExcept (f : α → Except ε β) : List α → Except ε (List β)
  | [] => .ok []
  | a :: l =>
    match f a with
    | .error e => .error e
    | .ok b =>
      match mapExcept f l with
      | .error e => .error e
      | .ok bs => .ok (b :: bs)

/-- Monadic map for `Option`, stopping at the first failure: the embedding of a
loop of fallible (panicking) steps. -/
def mapOption (f : α → Option β) : List α → Option (List β)
  | [] => some []
  | a :: l =>
    match f a with
    | none => none
    | some b =>
      match mapOption f l with
      | none => none
      | some bs => some (b :: bs)

/-- One piece between commas inside a clue: `x.parse::<usize>().ok().expect(...)`
of `get_specs`, with the panic embedded as `InvalidInteger`. -/
def parsePiece (x : List Char) : Except FormatError Nat :=
  match parseUsize x with
  | some n => .ok n
  | none => .error (.InvalidInteger x)

/-- Embedding of `Picross::get_specs` (`parse.rs`): checks the `[` ... `]`
delimiters (panic embedded as `InvalidClueSyntax`), then parses the
comma-separated interior (panic on a bad piece embedded as `InvalidInteger`). -/
def getSpecs (s : List Char) : Except FormatError (List Nat) :=
  if s.length < 2 ∨ ¬ s.getD 0 ' ' = '[' ∨ ¬ s.getD (s.length - 1) ' ' = ']' then
    .error (.InvalidClueSyntax s)
  else
    if ((s.drop 1).dropLast).length = 0 then .ok []
    else mapExcept parsePiece (splitComma ((s.drop 1).dropLast))

/-- Embedding of `Picross::parse` (`parse.rs`): height, then length, then
`height` row clues and `length` column clues taken in order from the token
stream; the final count check panics (`TokenCountMismatch`) when the stream ran
out of clue tokens. -/
def parse (data : List (List Char)) : Except FormatError Picross :=
  match data with
  | [] => .error (.MissingField ("height".data))
  | t0 :: rest0 =>
    match parseUsize t0 with
    | none => .error (.InvalidInteger ("height".data))
    | some height =>
      match rest0 with
      | [] => .error (.MissingField ("length".data))
      | t1 :: rest =>
        match parseUsize t1 with
        | none => .error (.InvalidInteger ("length".data))
        | some length =>
          let cells := List.replicate height (List.replicate length Cell.Unknown)
          match mapExcept getSpecs (rest.take height) with
          | .error e => .error e
          | .ok row_spec =>
            match mapExcept getSpecs ((rest.drop height).take length) with
            | .error e => .error e
            | .ok col_spec =>
              if row_spec.length = height ∧ col_spec.length = length then
                .ok { height := height, length := length,
                      row_spec := row_spec, col_spec := col_spec, cells := cells }
              else .error .TokenCountMismatch

/-- The per-line loop body of `Picross::is_valid` (`lib.rs`): scans the line
tracking `num_block` (runs already matched) and `size_block` (current run), and
performs the final open-run closing and count check after the scan. -/
def checkLineGo (spec : List Nat) : List Cell → Nat → Nat → Bool
  | [], num, size =>
    if size > 0 then
      if num ≥ spec.length then false
      else if ¬ size = spec.getD num 0 then false
      else decide (num + 1 = spec.length)
    else decide (num = spec.length)
  | c :: rest, num, size =>
    match c with
    | .Unknown => false
    | .Black => checkLineGo spec rest num (size + 1)
    | .White =>
      if size > 0 then
        if num ≥ spec.length then false
        else if ¬ size = spec.getD num 0 then false
        else checkLineGo spec rest (num + 1) 0
      else checkLineGo spec rest num 0

/-- The run-length matcher of `is_valid` on one line, started in its initial
state (`num_block = 0`, `size_block = 0`). -/
def checkLine (spec : List Nat) (line : List Cell) : Bool :=
  checkLineGo spec line 0 0

/-- The column-major derivation of `is_valid` (`lib.rs`, lines 227-234): column
`x` of the result is `[cells[0][x], ..., cells[height-1][x]]`, for `x` ranging
over `0..w`.  The source indexes `r[x]` only after the structural check has
ensured `x` is in bounds, so the `getD` default is never read there. -/
def transpose (w : Nat) (g : List (List Cell)) : List (List Cell) :=
  (List.range w).map (fun x => g.map (fun r => r.getD x Cell.Unknown))

/-- Embedding of `Picross::is_valid` (`lib.rs`): structural checks on `cells`
and on the spec lists, then the run-length matcher over every row and every
column. -/
def is_valid (p : Picross) : Bool :=
  if ¬ p.height = p.cells.length ∨ p.cells.any (fun r => ¬ p.length = r.length) then false
  else if ¬ p.height = p.row_spec.length ∨ ¬ p.length = p.col_spec.length then false
  else
    (p.row_spec.zip p.cells ++ p.col_spec.zip (transpose p.length p.cells)).all
      (fun sl => checkLine sl.1 sl.2)

/-- Panic-aware variant of `checkLineGo`: the index access `spec[num_block]` is
embedded as a list lookup that returns `none` (a panic) when out of bounds.
The source only reaches the access under the guard `num_block < spec.len()`. -/
def checkLineGoOpt (spec : List Nat) : List Cell → Nat → Nat → Option Bool
  | [], num, size =>
    if size > 0 then
      if num ≥ spec.length then some false
      else
        match spec.get? num with
        | none => none
        | some v => if ¬ size = v then some false else some (decide (num + 1 = spec.length))
    else some (decide (num = spec.length))
  | c :: rest, num, size =>
    match c with
    | .Unknown => some false
    | .Black => checkLineGoOpt spec rest num (size + 1)
    | .White =>
      if size > 0 then
        if num ≥ spec.length then some false
        else
          match spec.get? num with
          | none => none
          | some v => if ¬ size = v then some false else checkLineGoOpt spec rest (num + 1) 0
      else checkLineGoOpt spec rest num 0

/-- Panic-aware check of all (spec, line) pairs, with the early `return false`
of the source loop. -/
def checkAllOpt : List (List Nat × List Cell) → Option Bool
  | [] => some true
  | (spec, line) :: rest =>
    match checkLineGoOpt spec line 0 0 with
    | none => none
    | some false => some false
    | some true => checkAllOpt rest

/-- Panic-aware embedding of `Picross::is_valid`: every internal index access
(`r[x]` in the column derivation and `spec[num_block]` in the matcher) is a
fallible lookup, so a `none` result would correspond to a panic of the source. -/
def is_validOpt (p : Picross) : Option Bool :=
  if ¬ p.height = p.cells.length ∨ p.cells.any (fun r => ¬ p.length = r.length) then some false
  else if ¬ p.height = p.row_spec.length ∨ ¬ p.length = p.col_spec.length then some false
  else
    match mapOption (fun x => mapOption (fun r => r.get? x) p.cells) (List.range p.length) with
    | none => none
    | some cols => checkAllOpt (p.row_spec.zip p.cells ++ p.col_spec.zip cols)

/-- Embedding of `Picross::specs_to_strings` (`display.rs`): each clue list
rendered as its integers joined by single spaces. -/
def specs_to_strings (specs : List (List Nat)) : List String :=
  specs.map (fun v => String.intercalate " " (v.map (fun x => Nat.repr x)))

/-- Embedding of `Picross::max_len_non_empty` (`display.rs`): maximum string
length, with the panic on an empty list embedded as `none`. -/
def max_len_non_empty (specs : List String) : Option Nat :=
  match specs with
  | [] => none
  | _ => some ((specs.map String.length).foldl Nat.max 0)

/-- The cell-to-character rendering of `Display::fmt`. -/
def cellChar : Cell → Char
  | .Unknown => '?'
  | .White => ' '
  | .Black => '#'

/-- One row line of the renderer: the padding (whose `usize` subtraction
`max_rs_len - row_spec[i].len()` is embedded as a checked subtraction), the
row clue string, the separator and the rendered cells. -/
def renderRowLine (max_rs_len : Nat) (rs : String) (cl : List Cell) : Option String :=
  if rs.length ≤ max_rs_len then
    some (String.mk (List.replicate (max_rs_len - rs.length) ' ') ++ rs ++ "|" ++
          String.mk (cl.map cellChar) ++ "\n")
  else none

/-- Embedding of `Display::fmt` / `Picross::to_string` (`display.rs`): the
column-clue header block, the separator line, then one line per row; each
panic site (`max_len_non_empty` on an empty spec list, `row_spec[i]` and
`cells[i]` indexing, and the padding subtraction) is embedded as `none`. -/
def to_stringOpt (p : Picross) : Option String :=
  let row_spec := specs_to_strings p.row_spec
  let col_spec := specs_to_strings p.col_spec
  match max_len_non_empty row_spec, max_len_non_empty col_spec with
  | some max_rs_len, some max_cs_len =>
    let line_begin := String.mk (List.replicate max_rs_len ' ')
    let header := String.join ((List.range max_cs_len).map (fun i =>
      line_begin ++ "|" ++
      String.mk (col_spec.map (fun c => c.data.getD (max_cs_len - i - 1) ' ')) ++ "\n"))
    let sep := String.mk (List.replicate max_rs_len '-') ++ "+" ++
      String.mk (List.replicate p.length '-') ++ "\n"
    match mapOption (fun i =>
        match row_spec.get? i, p.cells.get? i with
        | some rs, some cl => renderRowLine max_rs_len rs cl
        | _, _ => none) (List.range p.height) with
    | some rows => some (header ++ sep ++ String.join rows)
    | none => none
  | _, _ => none

/-- Run-length decomposition of a line, with `k` the size of the currently open
run of `Black` cells: the ordered lengths of the maximal runs of `Black` cells
in `Black^k ++ l`.  A non-`Black` cell closes the open run (if any); the open
run still pending at the end of the line is emitted last. -/
def runAux : List Cell → Nat → List Nat
  | [], 0 => []
  | [], k + 1 => [k + 1]
  | .Black :: rest, k => runAux rest (k + 1)
  | _ :: rest, k + 1 => (k + 1) :: runAux rest 0
  | _ :: rest, 0 => runAux rest 0

/-- The ordered sequence of lengths of maximal runs of `Black` (filled) cells
of a line — the notion the specification's clue-matching condition is stated
with. -/
def runLengths (l : List Cell) : List Nat :=
  runAux l 0

/-- Modelled from the spec (claim side): a clue token "of the form `[` + a
comma-separated list (no whitespace) of decimal non-negative integers + `]`",
each integer written as a non-empty string of decimal digits. -/
def claimFormB (s : List Char) : Bool :=
  decide (2 ≤ s.length) && (s.getD 0 ' ' == '[') && (s.getD (s.length - 1) ' ' == ']') &&
    (((s.drop 1).dropLast).isEmpty ||
      (splitComma ((s.drop 1).dropLast)).all (fun t => !t.isEmpty && t.all (fun c => c.isDigit)))

/-- A token accepted by Rust `usize` parsing: an optional leading `'+'`, then
one or more decimal digits, with value below `2^64`. -/
def uintTokB (t : List Char) : Bool :=
  let d := stripPlus t
  !d.isEmpty && d.all (fun c => c.isDigit) && decide (digitsVal d < 18446744073709551616)

/-- Modelled from the spec (claim side, amended): the amended success domain of
`get_specs` — brackets around a comma-separated list of `usize` tokens. -/
def amendedFormB (s : List Char) : Bool :=
  decide (2 ≤ s.length) && (s.getD 0 ' ' == '[') && (s.getD (s.length - 1) ' ' == ']') &&
    (((s.drop 1).dropLast).isEmpty || (splitComma ((s.drop 1).dropLast)).all uintTokB)

/-- The integer list a clue token of the amended form denotes, in order. -/
def amendedVals (s : List Char) : List Nat :=
  if ((s.drop 1).dropLast).isEmpty then []
  else (splitComma ((s.drop 1).dropLast)).map (fun t => digitsVal (stripPlus t))

theorem getD_take_eq {α : Type} (l : List α) (n j : Nat) (d : α) (h : j < n) :
    (l.take n).getD j d = l.getD j d := by
  simp [List.getD_eq_getElem?_getD, List.getElem?_take, h]

theorem getD_drop_eq {α : Type} (l : List α) (n j : Nat) (d : α) :
    (l.drop n).getD j d = l.getD (n + j) d := by
  simp [List.getD_eq_getElem?_getD, List.getElem?_drop]

theorem le_foldl_max (l : List Nat) (init : Nat) : init ≤ l.foldl Nat.max init := by
  induction l generalizing init with
  | nil => simp
  | cons b t ih => exact le_trans (Nat.le_max_left init b) (ih (Nat.max init b))

theorem mem_le_foldl_max (l : List Nat) (x : Nat) (h : x ∈ l) (init : Nat) :
    x ≤ l.foldl Nat.max init := by
  induction l generalizing init with
  | nil => cases h
  | cons a t ih =>
    rw [List.foldl_cons]
    rcases List.mem_cons.1 h with rfl | hm
    · exact le_trans (Nat.le_max_right init x) (le_foldl_max t _)
    · exact ih hm _

theorem mapExcept_ok_length {α β ε : Type} (f : α → Except ε β) :
    ∀ (l : List α) (ys : List β), mapExcept f l = .ok ys → ys.length = l.length := by
  intro l
  induction l with
  | nil => intro ys h; simp [mapExcept] at h; simp [← h]
  | cons a t ih =>
    intro ys h
    simp only [mapExcept] at h
    cases hf : f a with
    | error e => rw [hf] at h; cases h
    | ok b =>
      rw [hf] at h
      cases ht : mapExcept f t with
      | error e => rw [ht] at h; cases h
      | ok bs =>
        rw [ht] at h
        cases h
        simp [ih bs ht]

theorem mapExcept_ok_getD {α β ε : Type} (f : α → Except ε β) (da : α) (db : β) :
    ∀ (l : List α) (ys : List β), mapExcept f l = .ok ys →
      ∀ j, j < l.length → f (l.getD j da) = .ok (ys.getD j db) := by
  intro l
  induction l with
  | nil => intro ys _ j hj; cases hj
  | cons a t ih =>
    intro ys h j hj
    simp only [mapExcept] at h
    cases hf : f a with
    | error e => rw [hf] at h; cases h
    | ok b =>
      rw [hf] at h
      cases ht : mapExcept f t with
      | error e => rw [ht] at h; cases h
      | ok bs =>
        rw [ht] at h
        cases h
        cases j with
        | zero => simpa using hf
        | succ j2 =>
          have hj2 : j2 < t.length := by simpa using hj
          simpa using ih bs ht j2 hj2

theorem mapExcept_ok_of_forall {α β ε : Type} (f : α → Except ε β) :
    ∀ (l : List α), (∀ a, a ∈ l → ∃ b, f a = .ok b) →
      ∃ ys, mapExcept f l = .ok ys := by
  intro l
  induction l with
  | nil => intro _; exact ⟨[], rfl⟩
  | cons a t ih =>
    intro h
    obtain ⟨b, hb⟩ := h a (List.mem_cons_self a t)
    obtain ⟨bs, hbs⟩ := ih (fun x hx => h x (List.mem_cons_of_mem a hx))
    exact ⟨b :: bs, by simp [mapExcept, hb, hbs]⟩

theorem mapExcept_error_at {α β ε : Type} (f : α → Except ε β) (da : α) :
    ∀ (l : List α) (k : Nat) (e : ε), k < l.length →
      (∀ j, j < k → ∃ v, f (l.getD j da) = .ok v) →
      f (l.getD k da) = .error e →
      mapExcept f l = .error e := by
  intro l
  induction l with
  | nil => intro k e hk; cases hk
  | cons a t ih =>
    intro k e hk hpre hke
    cases k with
    | zero =>
      simp [List.getD] at hke
      simp [mapExcept, hke]
    | succ k2 =>
      obtain ⟨v, hv⟩ := hpre 0 (Nat.succ_pos k2)
      simp [List.getD] at hv
      have hk2 : k2 < t.length := by simpa using hk
      have hpre2 : ∀ j, j < k2 → ∃ w, f (t.getD j da) = .ok w := by
        intro j hj
        have := hpre (j + 1) (by omega)
        simpa using this
      have hrec := ih k2 e hk2 hpre2 (by simpa using hke)
      simp [mapExcept, hv, hrec]

theorem mapExcept_map_of {α β ε : Type} (f : α → Except ε β) (g : α → β) :
    ∀ (l : List α), (∀ a, a ∈ l → f a = .ok (g a)) →
      mapExcept f l = .ok (l.map g) := by
  intro l
  induction l with
  | nil => intro _; rfl
  | cons a t ih =>
    intro h
    have ha := h a (List.mem_cons_self a t)
    have ht := ih (fun x hx => h x (List.mem_cons_of_mem a hx))
    simp [mapExcept, ha, ht]

theorem mapExcept_ok_mem {α β ε : Type} (f : α → Except ε β) :
    ∀ (l : List α) (ys : List β), mapExcept f l = .ok ys →
      ∀ a, a ∈ l → ∃ b, f a = .ok b := by
  intro l
  induction l with
  | nil => intro ys _ a ha; cases ha
  | cons x t ih =>
    intro ys h a ha
    simp only [mapExcept] at h
    cases hf : f x with
    | error e => rw [hf] at h; cases h
    | ok b =>
      rw [hf] at h
      cases ht : mapExcept f t with
      | error e => rw [ht] at h; cases h
      | ok bs =>
        rcases List.mem_cons.1 ha with rfl | hm
        · exact ⟨b, hf⟩
        · exact ih bs ht a hm

theorem mapOption_some_of_forall {α β : Type} (f : α → Option β) :
    ∀ (l : List α), (∀ a, a ∈ l → ∃ b, f a = some b) →
      ∃ ys, mapOption f l = some ys := by
  intro l
  induction l with
  | nil => intro _; exact ⟨[], rfl⟩
  | cons a t ih =>
    intro h
    obtain ⟨b, hb⟩ := h a (List.mem_cons_self a t)
    obtain ⟨bs, hbs⟩ := ih (fun x hx => h x (List.mem_cons_of_mem a hx))
    exact ⟨b :: bs, by simp [mapOption, hb, hbs]⟩

theorem mapOption_none_of_mem {α β : Type} (f : α → Option β) :
    ∀ (l : List α) (a : α), a ∈ l → f a = none → mapOption f l = none := by
  intro l
  induction l with
  | nil => intro a ha; cases ha
  | cons x t ih =>
    intro a ha hnone
    simp only [mapOption]
    cases hf : f x with
    | none => rfl
    | some b =>
      rcases List.mem_cons.1 ha with rfl | hm
      · rw [hf] at hnone; cases hnone
      · simp [ih a hm hnone]

theorem mapOption_map_of {α β : Type} (f : α → Option β) (g : α → β) :
    ∀ (l : List α), (∀ a, a ∈ l → f a = some (g a)) →
      mapOption f l = some (l.map g) := by
  intro l
  induction l with
  | nil => intro _; rfl
  | cons a t ih =>
    intro h
    have ha := h a (List.mem_cons_self a t)
    have ht := ih (fun x hx => h x (List.mem_cons_of_mem a hx))
    simp [mapOption, ha, ht]

theorem drop_eq_nil_iff_len {α : Type} (l : List α) (n : Nat) :
    l.drop n = [] ↔ l.length ≤ n := by
  constructor
  · intro h
    have := congrArg List.length h
    simp [List.length_drop] at this
    omega
  · intro h
    apply List.eq_nil_of_length_eq_zero
    simp [List.length_drop]
    omega

theorem drop_eq_getD_cons {α : Type} (l : List α) (n : Nat) (d : α) (h : n < l.length) :
    l.drop n = l.getD n d :: l.drop (n + 1) := by
  rw [List.drop_eq_getElem_cons h]
  simp [List.getD_eq_getElem?_getD, List.getElem?_eq_getElem h]

theorem drop_eq_single_iff (spec : List Nat) (num k : Nat) :
    spec.drop num = [k] ↔ (num < spec.length ∧ spec.getD num 0 = k ∧ num + 1 = spec.length) := by
  constructor
  · intro h
    have hlen := congrArg List.length h
    simp [List.length_drop] at hlen
    have hlt : num < spec.length := by omega
    rw [drop_eq_getD_cons spec num 0 hlt] at h
    have h2 := List.cons.injEq _ _ _ _ ▸ h
    rw [List.cons.injEq] at h
    refine ⟨hlt, h.1, ?_⟩
    omega
  · intro ⟨h1, h2, h3⟩
    rw [drop_eq_getD_cons spec num 0 h1, h2]
    have : spec.drop (num + 1) = [] := by rw [drop_eq_nil_iff_len]; omega
    rw [this]

theorem drop_eq_cons_iff (spec : List Nat) (num k : Nat) (t : List Nat) :
    spec.drop num = k :: t ↔
      (num < spec.length ∧ spec.getD num 0 = k ∧ spec.drop (num + 1) = t) := by
  constructor
  · intro h
    have hlen := congrArg List.length h
    simp [List.length_drop] at hlen
    have hlt : num < spec.length := by omega
    rw [drop_eq_getD_cons spec num 0 hlt] at h
    rw [List.cons.injEq] at h
    exact ⟨hlt, h.1, h.2⟩
  · intro ⟨h1, h2, h3⟩
    rw [drop_eq_getD_cons spec num 0 h1, h2, h3]

/-- The generalized invariant of the run-length matcher: started at matched-run
index `num` and open-run size `size`, the scan succeeds exactly when the line
holds no `Unknown` cell and the not-yet-matched part of the clue is exactly the
run decomposition of the rest of the line (with the open run prepended). -/
theorem checkLineGo_iff (spec : List Nat) :
    ∀ (line : List Cell) (num size : Nat), num ≤ spec.length →
      (checkLineGo spec line num size = true ↔
        ((∀ c, c ∈ line → ¬ c = Cell.Unknown) ∧ spec.drop num = runAux line size)) := by
  intro line
  induction line with
  | nil =>
    intro num size hnum
    cases size with
    | zero =>
      simp only [checkLineGo, runAux, gt_iff_lt, Nat.lt_irrefl, if_false, decide_eq_true_eq]
      rw [drop_eq_nil_iff_len]
      constructor
      · intro h
        exact ⟨fun c hc => absurd hc (List.not_mem_nil c), by omega⟩
      · intro ⟨_, h⟩
        omega
    | succ k =>
      simp only [checkLineGo, runAux, gt_iff_lt, Nat.succ_pos, if_true]
      rw [drop_eq_single_iff spec num (k + 1)]
      by_cases hge : num ≥ spec.length
      · simp only [hge, ge_iff_le, if_true]
        constructor
        · intro h; cases h
        · intro ⟨_, hlt, _⟩; omega
      · push_neg at hge
        by_cases heq : (k + 1 : Nat) = spec.getD num 0
        · rw [if_neg (Nat.not_le.2 hge), if_neg (show ¬ ¬ (k + 1 : Nat) = spec.getD num 0 by
            simpa using heq)]
          simp only [decide_eq_true_eq]
          constructor
          · intro h
            exact ⟨fun c hc => absurd hc (List.not_mem_nil c), hge, heq.symm, h⟩
          · intro ⟨_, _, _, h3⟩
            exact h3
        · rw [if_neg (Nat.not_le.2 hge), if_pos heq]
          constructor
          · intro h; cases h
          · intro ⟨_, _, h2, _⟩
            exact absurd h2.symm heq
  | cons c rest ih =>
    intro num size hnum
    cases c with
    | Unknown =>
      simp only [checkLineGo]
      constructor
      · intro h; cases h
      · intro ⟨h1, _⟩
        exact absurd rfl (h1 Cell.Unknown (List.mem_cons_self _ _))
    | Black =>
      show checkLineGo spec rest num (size + 1) = true ↔ _
      rw [ih num (size + 1) hnum]
      have hrun : runAux (Cell.Black :: rest) size = runAux rest (size + 1) := by
        cases size <;> simp [runAux]
      rw [hrun]
      constructor
      · intro ⟨h1, h2⟩
        refine ⟨?_, h2⟩
        intro x hx
        rcases List.mem_cons.1 hx with rfl | hm
        · intro hh; cases hh
        · exact h1 x hm
      · intro ⟨h1, h2⟩
        exact ⟨fun x hx => h1 x (List.mem_cons_of_mem _ hx), h2⟩
    | White =>
      cases size with
      | zero =>
        have hstep : checkLineGo spec (Cell.White :: rest) num 0 =
            checkLineGo spec rest num 0 := by
          simp [checkLineGo]
        rw [hstep, ih num 0 hnum]
        have hrun : runAux (Cell.White :: rest) 0 = runAux rest 0 := rfl
        rw [hrun]
        constructor
        · intro ⟨h1, h2⟩
          refine ⟨?_, h2⟩
          intro x hx
          rcases List.mem_cons.1 hx with rfl | hm
          · intro hh; cases hh
          · exact h1 x hm
        · intro ⟨h1, h2⟩
          exact ⟨fun x hx => h1 x (List.mem_cons_of_mem _ hx), h2⟩
      | succ k =>
        have hrun : runAux (Cell.White :: rest) (k + 1) = (k + 1) :: runAux rest 0 := rfl
        rw [show checkLineGo spec (Cell.White :: rest) num (k + 1) =
            (if num ≥ spec.length then false
             else if ¬ (k + 1 : Nat) = spec.getD num 0 then false
             else checkLineGo spec rest (num + 1) 0) from by simp [checkLineGo]]
        rw [hrun, drop_eq_cons_iff spec num (k + 1) (runAux rest 0)]
        by_cases hge : num ≥ spec.length
        · simp only [hge, ge_iff_le, if_true]
          constructor
          · intro h; cases h
          · intro ⟨_, hlt, _⟩; omega
        · push_neg at hge
          by_cases heq : (k + 1 : Nat) = spec.getD num 0
          · rw [if_neg (Nat.not_le.2 hge), if_neg (by simpa using heq)]
            rw [ih (num + 1) 0 (by omega)]
            constructor
            · intro ⟨h1, h2⟩
              refine ⟨?_, hge, heq.symm, h2⟩
              intro x hx
              rcases List.mem_cons.1 hx with rfl | hm
              · intro hh; cases hh
              · exact h1 x hm
            · intro ⟨h1, _, _, h3⟩
              exact ⟨fun x hx => h1 x (List.mem_cons_of_mem _ hx), h3⟩
          · rw [if_neg (Nat.not_le.2 hge), if_pos (by simpa using heq)]
            constructor
            · intro h; cases h
            · intro ⟨_, _, h2, _⟩
              exact absurd h2.symm heq

/-- The matcher on one full line accepts exactly the fully-resolved lines whose
run decomposition equals the clue. -/
theorem checkLine_iff (spec : List Nat) (line : List Cell) :
    checkLine spec line = true ↔
      ((∀ c, c ∈ line → ¬ c = Cell.Unknown) ∧ runLengths line = spec) := by
  rw [checkLine, checkLineGo_iff spec line 0 0 (Nat.zero_le _)]
  rw [List.drop_zero, runLengths]
  exact and_congr_right (fun _ => eq_comm)

/-- Every length in a run decomposition is positive (a maximal run holds at
least one cell). -/
theorem runAux_pos : ∀ (l : List Cell) (s x : Nat), x ∈ runAux l s → 0 < x := by
  intro l
  induction l with
  | nil =>
    intro s x hx
    cases s with
    | zero => cases hx
    | succ k =>
      rw [show runAux [] (k + 1) = [k + 1] from rfl] at hx
      rcases List.mem_singleton.1 hx with rfl
      omega
  | cons c rest ih =>
    intro s x hx
    cases c with
    | Black =>
      have : runAux (Cell.Black :: rest) s = runAux rest (s + 1) := by
        cases s <;> simp [runAux]
      rw [this] at hx
      have := ih (s + 1) x hx
      omega
    | White =>
      cases s with
      | zero =>
        rw [show runAux (Cell.White :: rest) 0 = runAux rest 0 from rfl] at hx
        have := ih 0 x hx
        omega
      | succ k =>
        rw [show runAux (Cell.White :: rest) (k + 1) = (k + 1) :: runAux rest 0 from rfl] at hx
        rcases List.mem_cons.1 hx with rfl | hm
        · omega
        · have := ih 0 x hm
          omega
    | Unknown =>
      cases s with
      | zero =>
        rw [show runAux (Cell.Unknown :: rest) 0 = runAux rest 0 from rfl] at hx
        have := ih 0 x hx
        omega
      | succ k =>
        rw [show runAux (Cell.Unknown :: rest) (k + 1) = (k + 1) :: runAux rest 0 from rfl] at hx
        rcases List.mem_cons.1 hx with rfl | hm
        · omega
        · have := ih 0 x hm
          omega

theorem zip_all_iff {α β : Type} (P : α → β → Bool) (da : α) (db : β) :
    ∀ (xs : List α) (ys : List β), xs.length = ys.length →
      ((xs.zip ys).all (fun p => P p.1 p.2) = true ↔
        ∀ i, i < xs.length → P (xs.getD i da) (ys.getD i db) = true) := by
  intro xs
  induction xs with
  | nil =>
    intro ys _
    constructor
    · intro _ i hi; cases hi
    · intro _; rfl
  | cons x xt ih =>
    intro ys hlen
    cases ys with
    | nil => cases hlen
    | cons y yt =>
      have hlen2 : xt.length = yt.length := by simpa using hlen
      rw [List.zip_cons_cons, List.all_cons, Bool.and_eq_true, ih yt hlen2]
      constructor
      · intro ⟨h1, h2⟩ i hi
        cases i with
        | zero => simpa using h1
        | succ j =>
          have : j < xt.length := by simpa using hi
          simpa using h2 j this
      · intro h
        refine ⟨by simpa using h 0 (by simp), ?_⟩
        intro j hj
        have := h (j + 1) (by simpa using hj)
        simpa using this

theorem getD_range_map {β : Type} (f : Nat → β) (w x : Nat) (d : β) (h : x < w) :
    ((List.range w).map f).getD x d = f x := by
  simp [List.getD_eq_getElem?_getD, List.getElem?_map, List.getElem?_range, h]

/-- Characterization of `is_valid`, used by several claims: the validator
accepts exactly the boards with consistent dimensions, no `Unknown` cell, and
every row's and every column's run decomposition equal to its clue. -/
theorem is_valid_iff_aux (p : Picross) :
    is_valid p = true ↔
      (p.cells.length = p.height ∧
       (∀ r, r ∈ p.cells → r.length = p.length) ∧
       p.row_spec.length = p.height ∧
       p.col_spec.length = p.length ∧
       (∀ r, r ∈ p.cells → ∀ c, c ∈ r → ¬ c = Cell.Unknown) ∧
       (∀ y, y < p.height → runLengths (p.cells.getD y []) = p.row_spec.getD y []) ∧
       (∀ x, x < p.length →
         runLengths (p.cells.map (fun r => r.getD x Cell.Unknown)) = p.col_spec.getD x [])) := by
  rw [is_valid]
  split
  case isTrue hA =>
    refine iff_of_false (by simp) ?_
    intro ⟨c1, c2, _⟩
    rcases hA with h | h
    · exact h c1.symm
    · rcases List.any_eq_true.1 h with ⟨r, hr, hfr⟩
      rw [decide_eq_true_eq] at hfr
      exact hfr (c2 r hr).symm
  case isFalse hA =>
    split
    case isTrue hB =>
      refine iff_of_false (by simp) ?_
      intro ⟨_, _, c3, c4, _⟩
      rcases hB with h | h
      · exact h c3.symm
      · exact h c4.symm
    case isFalse hB =>
      simp only [not_or, not_not] at hA hB
      obtain ⟨ha1, ha2⟩ := hA
      obtain ⟨hb1, hb2⟩ := hB
      have ha2' : ∀ r, r ∈ p.cells → r.length = p.length := by
        intro r hr
        by_contra hne
        exact ha2 (List.any_eq_true.2 ⟨r, hr, decide_eq_true (fun hh => hne hh.symm)⟩)
      have hlrows : p.row_spec.length = p.cells.length := by omega
      have hlcols : p.col_spec.length = (transpose p.length p.cells).length := by
        simp [transpose, hb2]
      rw [List.all_append, Bool.and_eq_true,
        zip_all_iff (fun s l => checkLine s l) [] [] p.row_spec p.cells hlrows,
        zip_all_iff (fun s l => checkLine s l) [] [] p.col_spec (transpose p.length p.cells)
          hlcols]
      constructor
      · intro ⟨hrow, hcol⟩
        refine ⟨ha1.symm, ha2', hb1.symm, hb2.symm, ?_, ?_, ?_⟩
        · intro r hr c hc
          rcases List.mem_iff_getElem.1 hr with ⟨y, hy, hyr⟩
          have hy2 : y < p.row_spec.length := by omega
          have := (checkLine_iff _ _).1 (hrow y hy2)
          have hgd : p.cells.getD y [] = r := by
            rw [List.getD_eq_getElem p.cells [] hy, hyr]
          rw [hgd] at this
          exact this.1 c hc
        · intro y hy
          have hy2 : y < p.row_spec.length := by omega
          exact ((checkLine_iff _ _).1 (hrow y hy2)).2
        · intro x hx
          have hx2 : x < p.col_spec.length := by omega
          have := ((checkLine_iff _ _).1 (hcol x hx2)).2
          rw [transpose, getD_range_map _ p.length x [] hx] at this
          exact this
      · intro ⟨c1, c2, c3, c4, c5, c6, c7⟩
        constructor
        · intro y hy
          have hy2 : y < p.height := by omega
          rw [checkLine_iff]
          have hmem : p.cells.getD y [] ∈ p.cells := by
            have hy3 : y < p.cells.length := by omega
            rw [List.getD_eq_getElem p.cells [] hy3]
            exact List.getElem_mem hy3
          exact ⟨fun c hc => c5 _ hmem c hc, c6 y hy2⟩
        · intro x hx
          have hx2 : x < p.length := by omega
          rw [transpose, getD_range_map _ p.length x [] hx2, checkLine_iff]
          refine ⟨?_, c7 x hx2⟩
          intro c hc
          rcases List.mem_map.1 hc with ⟨r, hr, hrc⟩
          have hxr : x < r.length := by
            rw [c2 r hr]
            exact hx2
          rw [← hrc, List.getD_eq_getElem r Cell.Unknown hxr]
          exact c5 r hr _ (List.getElem_mem hxr)

theorem checkLineGoOpt_eq (spec : List Nat) :
    ∀ (line : List Cell) (num size : Nat),
      checkLineGoOpt spec line num size = some (checkLineGo spec line num size) := by
  intro line
  induction line with
  | nil =>
    intro num size
    cases size with
    | zero => rfl
    | succ k =>
      simp only [checkLineGoOpt, checkLineGo, gt_iff_lt, Nat.succ_pos, if_true]
      by_cases hge : num ≥ spec.length
      · rw [if_pos hge, if_pos hge]
      · rw [if_neg hge, if_neg hge]
        push_neg at hge
        have hsome : spec.get? num = some (spec.getD num 0) := by
          rw [List.get?_eq_getElem? spec num, List.getElem?_eq_getElem hge,
            List.getD_eq_getElem spec 0 hge]
        rw [hsome]
        show (if ¬ (k + 1 : Nat) = spec.getD num 0 then (some false : Option Bool)
              else some (decide (num + 1 = spec.length))) =
            some (if ¬ (k + 1 : Nat) = spec.getD num 0 then false
              else decide (num + 1 = spec.length))
        by_cases heq : ¬ (k + 1 : Nat) = spec.getD num 0
        · rw [if_pos heq, if_pos heq]
        · rw [if_neg heq, if_neg heq]
  | cons c rest ih =>
    intro num size
    cases c with
    | Unknown => rfl
    | Black => exact ih num (size + 1)
    | White =>
      cases size with
      | zero =>
        simp only [checkLineGoOpt, checkLineGo, gt_iff_lt, Nat.lt_irrefl, if_false]
        exact ih num 0
      | succ k =>
        simp only [checkLineGoOpt, checkLineGo, gt_iff_lt, Nat.succ_pos, if_true]
        by_cases hge : num ≥ spec.length
        · rw [if_pos hge, if_pos hge]
        · rw [if_neg hge, if_neg hge]
          push_neg at hge
          have hsome : spec.get? num = some (spec.getD num 0) := by
            rw [List.get?_eq_getElem? spec num, List.getElem?_eq_getElem hge,
              List.getD_eq_getElem spec 0 hge]
          rw [hsome]
          show (if ¬ (k + 1 : Nat) = spec.getD num 0 then (some false : Option Bool)
                else checkLineGoOpt spec rest (num + 1) 0) =
              some (if ¬ (k + 1 : Nat) = spec.getD num 0 then false
                else checkLineGo spec rest (num + 1) 0)
          by_cases heq : ¬ (k + 1 : Nat) = spec.getD num 0
          · rw [if_pos heq, if_pos heq]
          · rw [if_neg heq, if_neg heq]
            exact ih (num + 1) 0

theorem checkAllOpt_eq :
    ∀ (ps : List (List Nat × List Cell)),
      checkAllOpt ps = some (ps.all (fun sl => checkLine sl.1 sl.2)) := by
  intro ps
  induction ps with
  | nil => rfl
  | cons sl rest ih =>
    obtain ⟨spec, line⟩ := sl
    simp only [checkAllOpt, checkLineGoOpt_eq spec line 0 0, List.all_cons]
    cases hb : checkLineGo spec line 0 0 with
    | false => simp [checkLine, hb]
    | true => simp [checkLine, hb, ih]

/-- The panic-aware validator agrees with the total one: no reachable panic. -/
theorem is_validOpt_eq (p : Picross) : is_validOpt p = some (is_valid p) := by
  rw [is_validOpt, is_valid]
  split
  case isTrue hA => rfl
  case isFalse hA =>
    split
    case isTrue hB => rfl
    case isFalse hB =>
      simp only [not_or, not_not] at hA
      obtain ⟨ha1, ha2⟩ := hA
      have ha2' : ∀ r, r ∈ p.cells → r.length = p.length := by
        intro r hr
        by_contra hne
        exact ha2 (List.any_eq_true.2 ⟨r, hr, decide_eq_true (fun hh => hne hh.symm)⟩)
      have hcols : mapOption (fun x => mapOption (fun r => r.get? x) p.cells)
          (List.range p.length) = some (transpose p.length p.cells) := by
        rw [transpose]
        apply mapOption_map_of
        intro x hx
        apply mapOption_map_of
        intro r hr
        have hxr : x < r.length := by
          rw [ha2' r hr]
          exact List.mem_range.1 hx
        rw [List.get?_eq_getElem? r x, List.getElem?_eq_getElem hxr,
          List.getD_eq_getElem r Cell.Unknown hxr]
      rw [hcols]
      show checkAllOpt (p.row_spec.zip p.cells ++
          p.col_spec.zip (transpose p.length p.cells)) = _
      rw [checkAllOpt_eq]

theorem parseUsize_eq_ite (t : List Char) :
    parseUsize t = (if uintTokB t then some (digitsVal (stripPlus t)) else none) := by
  rw [parseUsize, uintTokB]
  by_cases h1 : (stripPlus t).isEmpty
  · simp [h1]
  · by_cases h2 : (stripPlus t).all (fun c => c.isDigit)
    · by_cases h3 : digitsVal (stripPlus t) < 18446744073709551616
      · simp [h1, h2, h3]
      · simp [h1, h2, h3]
    · simp [h1, h2]

theorem parsePiece_ok_iff (t : List Char) :
    (∃ n, parsePiece t = .ok n) ↔ uintTokB t = true := by
  rw [parsePiece, parseUsize_eq_ite]
  by_cases h : uintTokB t
  · simp [h]
  · simp [h]

theorem parsePiece_ok_val (t : List Char) (h : uintTokB t = true) :
    parsePiece t = .ok (digitsVal (stripPlus t)) := by
  rw [parsePiece, parseUsize_eq_ite, if_pos h]

/-- The success domain and value of `get_specs`: it succeeds exactly on the
bracket-delimited comma-separated lists of Rust-`usize` tokens, and then
returns their values in order. -/
theorem getSpecs_ok_iff (s : List Char) :
    ((∃ v, getSpecs s = .ok v) ↔ amendedFormB s = true) ∧
      (amendedFormB s = true → getSpecs s = .ok (amendedVals s)) := by
  rw [getSpecs, amendedFormB, amendedVals]
  by_cases hg : s.length < 2 ∨ ¬ s.getD 0 ' ' = '[' ∨ ¬ s.getD (s.length - 1) ' ' = ']'
  · rw [if_pos hg]
    constructor
    · constructor
      · intro ⟨v, hv⟩; cases hv
      · intro h
        simp only [Bool.and_eq_true, decide_eq_true_eq, beq_iff_eq] at h
        exact absurd (Or.elim hg (fun h1 => by omega)
          (fun h2 => Or.elim h2 (fun h3 => h3 h.1.1.2) (fun h4 => h4 h.1.2))) not_false
    · intro h
      simp only [Bool.and_eq_true, decide_eq_true_eq, beq_iff_eq] at h
      exact absurd (Or.elim hg (fun h1 => by omega)
        (fun h2 => Or.elim h2 (fun h3 => h3 h.1.1.2) (fun h4 => h4 h.1.2))) not_false
  · rw [if_neg hg]
    push_neg at hg
    obtain ⟨hl, hb1, hb2⟩ := hg
    have hpre : (decide (2 ≤ s.length) && (s.getD 0 ' ' == '[') &&
        (s.getD (s.length - 1) ' ' == ']')) = true := by
      simp only [Bool.and_eq_true, decide_eq_true_eq, beq_iff_eq]
      exact ⟨⟨by omega, hb1⟩, hb2⟩
    by_cases hi : ((s.drop 1).dropLast).length = 0
    · have hie : ((s.drop 1).dropLast).isEmpty = true := by
        rw [List.isEmpty_iff]
        exact List.eq_nil_of_length_eq_zero hi
      rw [if_pos hi]
      constructor
      · constructor
        · intro _
          rw [hpre, hie]
          rfl
        · intro _
          exact ⟨[], rfl⟩
      · intro _
        rw [if_pos hie]
    · have hie : ((s.drop 1).dropLast).isEmpty = false := by
        rw [List.isEmpty_eq_false_iff_exists_mem]
        rcases List.exists_mem_of_length_pos (by omega :
          0 < ((s.drop 1).dropLast).length) with ⟨a, ha⟩
        exact ⟨a, ha⟩
      rw [if_neg hi, hpre, hie]
      simp only [Bool.true_and, Bool.false_or]
      constructor
      · constructor
        · intro ⟨v, hv⟩
          rw [List.all_eq_true]
          intro t ht
          obtain ⟨n, hn⟩ := mapExcept_ok_mem parsePiece (splitComma ((s.drop 1).dropLast)) v hv t ht
          exact (parsePiece_ok_iff t).1 ⟨n, hn⟩
        · intro h
          apply mapExcept_ok_of_forall
          intro t ht
          obtain ⟨n, hn⟩ := (parsePiece_ok_iff t).2 (List.all_eq_true.1 h t ht)
          exact ⟨n, hn⟩
      · intro h
        rw [if_neg (by simp [hie])]
        apply mapExcept_map_of
        intro t ht
        exact parsePiece_ok_val t (List.all_eq_true.1 h t ht)

/-- Destructor for a successful parse: shape of the token stream and of the
resulting board. -/
theorem parse_ok_dest (data : List (List Char)) (p : Picross) (h : parse data = .ok p) :
    ∃ t0 t1 rest, data = t0 :: t1 :: rest ∧
      parseUsize t0 = some p.height ∧ parseUsize t1 = some p.length ∧
      mapExcept getSpecs (rest.take p.height) = .ok p.row_spec ∧
      mapExcept getSpecs ((rest.drop p.height).take p.length) = .ok p.col_spec ∧
      p.row_spec.length = p.height ∧ p.col_spec.length = p.length ∧
      p.cells = List.replicate p.height (List.replicate p.length Cell.Unknown) := by
  match data with
  | [] => cases h
  | t0 :: rest0 =>
    rw [parse] at h
    cases h0 : parseUsize t0 with
    | none => simp only [h0] at h; cases h
    | some height =>
      simp only [h0] at h
      match rest0 with
      | [] => cases h
      | t1 :: rest =>
        cases h1 : parseUsize t1 with
        | none => simp only [h1] at h; cases h
        | some length =>
          simp only [h1] at h
          cases h2 : mapExcept getSpecs (rest.take height) with
          | error e => simp only [h2] at h; cases h
          | ok row_spec =>
            simp only [h2] at h
            cases h3 : mapExcept getSpecs ((rest.drop height).take length) with
            | error e => simp only [h3] at h; cases h
            | ok col_spec =>
              simp only [h3] at h
              by_cases h4 : row_spec.length = height ∧ col_spec.length = length
              · rw [if_pos h4] at h
                rw [Except.ok.injEq] at h
                refine ⟨t0, t1, rest, rfl, ?_, ?_, ?_, ?_, ?_, ?_, ?_⟩ <;>
                  rw [← h] <;> simp [h0, h1, h2, h3, h4.1, h4.2]
              · rw [if_neg h4] at h
                cases h

theorem take_mem_getD {α : Type} (l : List α) (n : Nat) (d : α) (a : α) (ha : a ∈ l.take n) :
    ∃ j, j < n ∧ j < l.length ∧ a = l.getD j d := by
  rcases List.mem_iff_getElem.1 ha with ⟨j, hj, hja⟩
  have hb : j < n ∧ j < l.length := by
    have := hj
    simp only [List.length_take] at this
    omega
  refine ⟨j, hb.1, hb.2, ?_⟩
  rw [← getD_take_eq l n j d hb.1, List.getD_eq_getElem (l.take n) d hj, hja]

/-- If the first offending clue token (in consumption order) fails `get_specs`
with error `e`, `parse` fails with `e`. -/
theorem parse_error_clue (t0 t1 : List Char) (rest : List (List Char)) (h l k : Nat)
    (e : FormatError)
    (h0 : parseUsize t0 = some h) (h1 : parseUsize t1 = some l)
    (hk : k < h + l) (hkr : k < rest.length)
    (hpre : ∀ j, j < k → ∃ v, getSpecs (rest.getD j []) = .ok v)
    (hke : getSpecs (rest.getD k []) = .error e) :
    parse (t0 :: t1 :: rest) = .error e := by
  rw [parse]
  simp only [h0, h1]
  by_cases hcase : k < h
  · have hrow : mapExcept getSpecs (rest.take h) = .error e := by
      apply mapExcept_error_at getSpecs [] (rest.take h) k e
      · simp only [List.length_take]
        omega
      · intro j hj
        rw [getD_take_eq rest h j [] (by omega)]
        exact hpre j hj
      · rw [getD_take_eq rest h k [] hcase]
        exact hke
    simp [hrow]
  · push_neg at hcase
    have hrow : ∃ rs, mapExcept getSpecs (rest.take h) = .ok rs := by
      apply mapExcept_ok_of_forall
      intro a ha
      rcases take_mem_getD rest h [] a ha with ⟨j, hj1, hj2, hja⟩
      rw [hja]
      exact hpre j (by omega)
    obtain ⟨rs, hrs⟩ := hrow
    have hcol : mapExcept getSpecs ((rest.drop h).take l) = .error e := by
      apply mapExcept_error_at getSpecs [] ((rest.drop h).take l) (k - h) e
      · simp only [List.length_take, List.length_drop]
        omega
      · intro j hj
        rw [getD_take_eq (rest.drop h) l j [] (by omega), getD_drop_eq rest h j []]
        exact hpre (h + j) (by omega)
      · rw [getD_take_eq (rest.drop h) l (k - h) [] (by omega), getD_drop_eq rest h (k - h) []]
        rw [show h + (k - h) = k by omega]
        exact hke
    simp [hrs, hcol]

/-- If the stream holds fewer clue tokens than `height + length` and all of
them are well-formed, `parse` fails with `TokenCountMismatch`. -/
theorem parse_error_count (t0 t1 : List Char) (rest : List (List Char)) (h l : Nat)
    (h0 : parseUsize t0 = some h) (h1 : parseUsize t1 = some l)
    (hshort : rest.length < h + l)
    (hok : ∀ j, j < rest.length → ∃ v, getSpecs (rest.getD j []) = .ok v) :
    parse (t0 :: t1 :: rest) = .error .TokenCountMismatch := by
  rw [parse]
  simp only [h0, h1]
  have hrow : ∃ rs, mapExcept getSpecs (rest.take h) = .ok rs := by
    apply mapExcept_ok_of_forall
    intro a ha
    rcases take_mem_getD rest h [] a ha with ⟨j, hj1, hj2, hja⟩
    rw [hja]
    exact hok j hj2
  obtain ⟨rs, hrs⟩ := hrow
  have hcol : ∃ cs, mapExcept getSpecs ((rest.drop h).take l) = .ok cs := by
    apply mapExcept_ok_of_forall
    intro a ha
    rcases take_mem_getD (rest.drop h) l [] a ha with ⟨j, hj1, hj2, hja⟩
    rw [hja, getD_drop_eq rest h j []]
    have : j < rest.length - h := by
      simpa [List.length_drop] using hj2
    exact hok (h + j) (by omega)
  obtain ⟨cs, hcs⟩ := hcol
  have hrslen := mapExcept_ok_length getSpecs (rest.take h) rs hrs
  have hcslen := mapExcept_ok_length getSpecs ((rest.drop h).take l) cs hcs
  simp only [List.length_take, List.length_drop] at hrslen hcslen
  have hne : ¬ (rs.length = h ∧ cs.length = l) := by
    intro ⟨e1, e2⟩
    omega
  simp [hrs, hcs, hne]

theorem max_len_some (specs : List String) (h : ¬ specs = []) :
    ∃ m, max_len_non_empty specs = some m ∧ ∀ s, s ∈ specs → s.length ≤ m := by
  match specs with
  | [] => exact absurd rfl h
  | a :: t =>
    refine ⟨((a :: t).map String.length).foldl Nat.max 0, rfl, ?_⟩
    intro s hs
    exact mem_le_foldl_max _ _ (List.mem_map_of_mem String.length hs) 0

/-- Rendering succeeds whenever both spec lists are non-empty and the row loop
stays in bounds (`height` at most the row-spec count and the cell-row count). -/
theorem render_some_aux (p : Picross)
    (hrs : ¬ p.row_spec = []) (hcs : ¬ p.col_spec = [])
    (hhr : p.height ≤ p.row_spec.length) (hhc : p.height ≤ p.cells.length) :
    ∃ s, to_stringOpt p = some s := by
  rw [to_stringOpt]
  have hrs2 : ¬ specs_to_strings p.row_spec = [] := by
    intro hh
    have := congrArg List.length hh
    simp only [specs_to_strings, List.length_map, List.length_nil] at this
    exact hrs (List.eq_nil_of_length_eq_zero this)
  have hcs2 : ¬ specs_to_strings p.col_spec = [] := by
    intro hh
    have := congrArg List.length hh
    simp only [specs_to_strings, List.length_map, List.length_nil] at this
    exact hcs (List.eq_nil_of_length_eq_zero this)
  obtain ⟨m1, hm1, hb1⟩ := max_len_some (specs_to_strings p.row_spec) hrs2
  obtain ⟨m2, hm2, _⟩ := max_len_some (specs_to_strings p.col_spec) hcs2
  simp only [hm1, hm2]
  have hrows : ∃ rows, mapOption (fun i =>
      match (specs_to_strings p.row_spec).get? i, p.cells.get? i with
      | some rs, some cl => renderRowLine m1 rs cl
      | _, _ => none) (List.range p.height) = some rows := by
    apply mapOption_some_of_forall
    intro i hi
    have hiheight : i < p.height := List.mem_range.1 hi
    have hirow : i < (specs_to_strings p.row_spec).length := by
      simp only [specs_to_strings, List.length_map]
      omega
    have hicell : i < p.cells.length := by omega
    rw [List.get?_eq_getElem? _ i, List.getElem?_eq_getElem hirow,
      List.get?_eq_getElem? p.cells i, List.getElem?_eq_getElem hicell]
    have hle : (specs_to_strings p.row_spec)[i].length ≤ m1 :=
      hb1 _ (List.getElem_mem hirow)
    refine ⟨String.mk (List.replicate (m1 - (specs_to_strings p.row_spec)[i].length) ' ') ++
      (specs_to_strings p.row_spec)[i] ++ "|" ++
      String.mk (p.cells[i].map cellChar) ++ "\n", ?_⟩
    show renderRowLine m1 (specs_to_strings p.row_spec)[i] p.cells[i] = _
    unfold renderRowLine
    rw [if_pos hle]
  obtain ⟨rows, hrows⟩ := hrows
  rw [hrows]
  exact ⟨_, rfl⟩

/-- Rendering fails (a panic of the source) when the row loop runs out of row
specs or cell rows before `height` iterations. -/
theorem render_none_aux (p : Picross)
    (hrs : ¬ p.row_spec = []) (hcs : ¬ p.col_spec = [])
    (hlt : p.row_spec.length < p.height ∨ p.cells.length < p.height) :
    to_stringOpt p = none := by
  rw [to_stringOpt]
  have hrs2 : ¬ specs_to_strings p.row_spec = [] := by
    intro hh
    have := congrArg List.length hh
    simp only [specs_to_strings, List.length_map, List.length_nil] at this
    exact hrs (List.eq_nil_of_length_eq_zero this)
  have hcs2 : ¬ specs_to_strings p.col_spec = [] := by
    intro hh
    have := congrArg List.length hh
    simp only [specs_to_strings, List.length_map, List.length_nil] at this
    exact hcs (List.eq_nil_of_length_eq_zero this)
  obtain ⟨m1, hm1, _⟩ := max_len_some (specs_to_strings p.row_spec) hrs2
  obtain ⟨m2, hm2, _⟩ := max_len_some (specs_to_strings p.col_spec) hcs2
  simp only [hm1, hm2]
  have hnone : mapOption (fun i =>
      match (specs_to_strings p.row_spec).get? i, p.cells.get? i with
      | some rs, some cl => renderRowLine m1 rs cl
      | _, _ => none) (List.range p.height) = none := by
    rcases hlt with hlt | hlt
    · apply mapOption_none_of_mem _ _ p.row_spec.length
        (List.mem_range.2 hlt)
      have hnone1 : (specs_to_strings p.row_spec).get? p.row_spec.length = none := by
        rw [List.get?_eq_getElem? _ _]
        apply List.getElem?_eq_none
        simp [specs_to_strings]
      rw [hnone1]
    · apply mapOption_none_of_mem _ _ p.cells.length
        (List.mem_range.2 hlt)
      have hnone2 : p.cells.get? p.cells.length = none := by
        rw [List.get?_eq_getElem? _ _]
        exact List.getElem?_eq_none le_rfl
      rw [hnone2]
      cases (specs_to_strings p.row_spec).get? p.cells.length <;> rfl
  rw [hnone]

/-- C1: `is_valid` returns true if and only if (i) `cells` has exactly `height`
rows each of exactly `length` cells and `row_spec`/`col_spec` have exactly
`height`/`length` entries, (ii) no cell is `Unknown`, and (iii) for every row
and every column the ordered lengths of maximal runs of `Black` cells equal the
corresponding clue.  In particular a board with an `Unknown` cell, or with a
dimension mismatch, is invalid. -/
theorem claim_C1_is_valid_iff (p : Picross) :
    is_valid p = true ↔
      (p.cells.length = p.height ∧
       (∀ r, r ∈ p.cells → r.length = p.length) ∧
       p.row_spec.length = p.height ∧
       p.col_spec.length = p.length ∧
       (∀ r, r ∈ p.cells → ∀ c, c ∈ r → ¬ c = Cell.Unknown) ∧
       (∀ y, y < p.height → runLengths (p.cells.getD y []) = p.row_spec.getD y []) ∧
       (∀ x, x < p.length →
         runLengths (p.cells.map (fun r => r.getD x Cell.Unknown)) = p.col_spec.getD x [])) :=
  is_valid_iff_aux p

/-- C2: a successful parse returns a board whose spec lists have exactly
`height` and `length` entries, whose cell grid is `height × length` and all
`Unknown`, with `height`/`length` read from the first two tokens and the clues
read, in order, from the following `height` then `length` tokens. -/
theorem claim_C2_parse_structure (data : List (List Char)) (p : Picross)
    (h : parse data = .ok p) :
    p.row_spec.length = p.height ∧ p.col_spec.length = p.length ∧
    p.cells.length = p.height ∧ (∀ r, r ∈ p.cells → r.length = p.length) ∧
    (∀ r, r ∈ p.cells → ∀ c, c ∈ r → c = Cell.Unknown) ∧
    (∃ t0 t1 rest, data = t0 :: t1 :: rest ∧
      parseUsize t0 = some p.height ∧ parseUsize t1 = some p.length ∧
      (∀ i, i < p.height → getSpecs (rest.getD i []) = .ok (p.row_spec.getD i [])) ∧
      (∀ j, j < p.length →
        getSpecs (rest.getD (p.height + j) []) = .ok (p.col_spec.getD j []))) := by
  obtain ⟨t0, t1, rest, hdata, h0, h1, hrow, hcol, hrl, hcl, hcells⟩ := parse_ok_dest data p h
  have hrowtake := mapExcept_ok_length getSpecs _ _ hrow
  have hcoltake := mapExcept_ok_length getSpecs _ _ hcol
  simp only [List.length_take, List.length_drop] at hrowtake hcoltake
  have hrest1 : p.height ≤ rest.length := by omega
  have hrest2 : p.height + p.length ≤ rest.length := by omega
  refine ⟨hrl, hcl, ?_, ?_, ?_, t0, t1, rest, hdata, h0, h1, ?_, ?_⟩
  · rw [hcells, List.length_replicate]
  · intro r hr
    rw [hcells] at hr
    rw [List.eq_of_mem_replicate hr, List.length_replicate]
  · intro r hr c hc
    rw [hcells] at hr
    rw [List.eq_of_mem_replicate hr] at hc
    exact List.eq_of_mem_replicate hc
  · intro i hi
    have := mapExcept_ok_getD getSpecs [] [] (rest.take p.height) p.row_spec hrow i
      (by simp only [List.length_take]; omega)
    rw [getD_take_eq rest p.height i [] hi] at this
    exact this
  · intro j hj
    have := mapExcept_ok_getD getSpecs [] [] ((rest.drop p.height).take p.length)
      p.col_spec hcol j (by simp only [List.length_take, List.length_drop]; omega)
    rw [getD_take_eq (rest.drop p.height) p.length j [] hj, getD_drop_eq rest p.height j []]
      at this
    exact this

/-- Witness for C2 at a concrete well-formed token stream. -/
theorem claim_C2_witness :
    (Picross.mk 1 1 [[1]] [[1]] [[Cell.Unknown]]).row_spec.length =
      (Picross.mk 1 1 [[1]] [[1]] [[Cell.Unknown]]).height :=
  (claim_C2_parse_structure ["1".data, "1".data, "[1]".data, "[1]".data]
    (Picross.mk 1 1 [[1]] [[1]] [[Cell.Unknown]]) (by decide)).1

/-- C4: the renderer produces exactly the documented string on the 3×3 example
board (header lines, separator, then rows with padded clue labels and `?`/` `/
`#` cells). -/
theorem claim_C4_render_example :
    to_stringOpt (Picross.mk 3 3 [[1, 1], [1], [1]] [[1, 1], [], [2]]
      [[Cell.Unknown, Cell.White, Cell.Black],
       [Cell.White, Cell.White, Cell.Black],
       [Cell.Black, Cell.Unknown, Cell.Unknown]]) =
    some "   |1  \n   |   \n   |1 2\n---+---\n1 1|? #\n  1|  #\n  1|#??\n" := by
  decide

/-- Counterexample to C5 as stated: a board with `height = 0` but a non-empty
`row_spec` renders successfully, so `height == 0 ∨ length == 0` alone does not
make rendering fail. -/
theorem claim_C5_counterexample :
    (Picross.mk 0 1 [[1]] [[1]] []).height = 0 ∧
      to_stringOpt (Picross.mk 0 1 [[1]] [[1]] []) = some " |1\n-+-\n" := by
  constructor
  · rfl
  · decide

/-- C5 (amended): for boards with consistent dimensions (`row_spec` of length
`height`, `col_spec` of length `length`, `cells` with `height` rows), rendering
fails (panics) exactly when `height = 0` or `length = 0`, and succeeds with a
string when both are positive. -/
theorem claim_C5_render_empty (p : Picross)
    (h1 : p.row_spec.length = p.height) (h2 : p.col_spec.length = p.length)
    (h3 : p.cells.length = p.height) :
    ((p.height = 0 ∨ p.length = 0) → to_stringOpt p = none) ∧
    (0 < p.height → 0 < p.length → ∃ s, to_stringOpt p = some s) := by
  constructor
  · intro hor
    rcases hor with h0 | h0
    · have hrow : specs_to_strings p.row_spec = [] := by
        have : p.row_spec = [] := List.eq_nil_of_length_eq_zero (by omega)
        rw [this]
        rfl
      rw [to_stringOpt, hrow]
      cases max_len_non_empty (specs_to_strings p.col_spec) <;> rfl
    · have hcol : specs_to_strings p.col_spec = [] := by
        have : p.col_spec = [] := List.eq_nil_of_length_eq_zero (by omega)
        rw [this]
        rfl
      rw [to_stringOpt, hcol]
      cases max_len_non_empty (specs_to_strings p.row_spec) <;> rfl
  · intro hh hl
    apply render_some_aux p
    · intro hnil
      rw [hnil] at h1
      simp only [List.length_nil] at h1
      omega
    · intro hnil
      rw [hnil] at h2
      simp only [List.length_nil] at h2
      omega
    · omega
    · omega

/-- Witness for C5 (amended) at two concrete boards: a consistent `height = 0`
board fails, a consistent positive board succeeds. -/
theorem claim_C5_witness :
    to_stringOpt (Picross.mk 0 1 [] [[1]] []) = none ∧
      ∃ s, to_stringOpt (Picross.mk 1 1 [[1]] [[1]] [[Cell.Black]]) = some s :=
  ⟨(claim_C5_render_empty (Picross.mk 0 1 [] [[1]] []) rfl rfl rfl).1 (Or.inl rfl),
   (claim_C5_render_empty (Picross.mk 1 1 [[1]] [[1]] [[Cell.Black]]) rfl rfl rfl).2
     Nat.one_pos Nat.one_pos⟩

/-- C6: `is_valid` is total — on every board, however inconsistent, every
internal index access is guarded, so the panic-aware embedding returns
`some` of the total validator's verdict and never a panic. -/
theorem claim_C6_is_valid_total (p : Picross) : is_validOpt p = some (is_valid p) :=
  is_validOpt_eq p

/-- C3: parse failures are terminal `FormatError` values, classified by the
first problem met in consumption order: `MissingField` when the stream ends
before `height` or `length`, `InvalidInteger` when an integer token (or clue
entry) does not parse, `InvalidClueSyntax` when a clue token is not
bracket-delimited, and `TokenCountMismatch` when fewer well-formed clue tokens
are available than `height + length` require. -/
theorem claim_C3_parse_errors (data : List (List Char)) :
    (data = [] → parse data = .error (.MissingField ("height".data))) ∧
    (∀ t0 h, data = [t0] → parseUsize t0 = some h →
      parse data = .error (.MissingField ("length".data))) ∧
    (∀ t0 rest0, data = t0 :: rest0 → parseUsize t0 = none →
      parse data = .error (.InvalidInteger ("height".data))) ∧
    (∀ t0 t1 rest h, data = t0 :: t1 :: rest → parseUsize t0 = some h →
      parseUsize t1 = none → parse data = .error (.InvalidInteger ("length".data))) ∧
    (∀ s : List Char,
      (s.length < 2 ∨ ¬ s.getD 0 ' ' = '[' ∨ ¬ s.getD (s.length - 1) ' ' = ']') →
      getSpecs s = .error (.InvalidClueSyntax s)) ∧
    (∀ t0 t1 rest h l k e, data = t0 :: t1 :: rest →
      parseUsize t0 = some h → parseUsize t1 = some l →
      k < h + l → k < rest.length →
      (∀ j, j < k → ∃ v, getSpecs (rest.getD j []) = .ok v) →
      getSpecs (rest.getD k []) = .error e →
      parse data = .error e) ∧
    (∀ t0 t1 rest h l, data = t0 :: t1 :: rest →
      parseUsize t0 = some h → parseUsize t1 = some l →
      rest.length < h + l →
      (∀ j, j < rest.length → ∃ v, getSpecs (rest.getD j []) = .ok v) →
      parse data = .error .TokenCountMismatch) := by
  refine ⟨?_, ?_, ?_, ?_, ?_, ?_, ?_⟩
  · intro hd
    rw [hd]
    rfl
  · intro t0 h hd h0
    rw [hd, parse]
    simp only [h0]
  · intro t0 rest0 hd h0
    rw [hd, parse]
    simp only [h0]
  · intro t0 t1 rest h hd h0 h1
    rw [hd, parse]
    simp only [h0, h1]
  · intro s hcond
    rw [getSpecs, if_pos hcond]
  · intro t0 t1 rest h l k e hd h0 h1 hk hkr hpre hke
    rw [hd]
    exact parse_error_clue t0 t1 rest h l k e h0 h1 hk hkr hpre hke
  · intro t0 t1 rest h l hd h0 h1 hshort hok
    rw [hd]
    exact parse_error_count t0 t1 rest h l h0 h1 hshort hok

/-- Witness for C3: each error class reached at a concrete malformed input. -/
theorem claim_C3_witness :
    parse [] = .error (.MissingField ("height".data)) ∧
    parse ["7".data] = .error (.MissingField ("length".data)) ∧
    parse ["x".data] = .error (.InvalidInteger ("height".data)) ∧
    parse ["7".data, "x".data] = .error (.InvalidInteger ("length".data)) ∧
    getSpecs ("(1,2)".data) = .error (.InvalidClueSyntax ("(1,2)".data)) ∧
    parse ["1".data, "1".data, "(1)".data] = .error (.InvalidClueSyntax ("(1)".data)) ∧
    parse ["2".data, "1".data, "[1]".data] = .error .TokenCountMismatch := by
  refine ⟨?_, ?_, ?_, ?_, ?_, ?_, ?_⟩
  · exact (claim_C3_parse_errors []).1 rfl
  · exact (claim_C3_parse_errors ["7".data]).2.1 ("7".data) 7 rfl (by decide)
  · exact (claim_C3_parse_errors ["x".data]).2.2.1 ("x".data) [] rfl (by decide)
  · exact (claim_C3_parse_errors ["7".data, "x".data]).2.2.2.1 ("7".data) ("x".data) [] 7
      rfl (by decide) (by decide)
  · exact (claim_C3_parse_errors []).2.2.2.2.1 ("(1,2)".data) (by decide)
  · exact (claim_C3_parse_errors ["1".data, "1".data, "(1)".data]).2.2.2.2.2.1
      ("1".data) ("1".data) (["(1)".data]) 1 1 0 (.InvalidClueSyntax ("(1)".data))
      rfl (by decide) (by decide) (by decide) (by decide)
      (fun j hj => absurd hj (Nat.not_lt_zero j)) (by decide)
  · apply (claim_C3_parse_errors ["2".data, "1".data, "[1]".data]).2.2.2.2.2.2
      ("2".data) ("1".data) (["[1]".data]) 2 1 rfl (by decide) (by decide) (by decide)
    intro j hj
    have hj1 : j < 1 := by simpa using hj
    have hj0 : j = 0 := by omega
    rw [hj0]
    exact ⟨[1], by decide⟩

/-- Counterexample to C7 as stated: `get_specs` accepts `"[+0]"` whose entry is
not a bare digit string, and rejects `"[18446744073709551616]"` although it is
a bracketed list of decimal non-negative integers (the value overflows a 64-bit
`usize`), so acceptance is not exactly the claimed digit-list form
(`claimFormB`). -/
theorem claim_C7_counterexample :
    getSpecs ("[+0]".data) = .ok [0] ∧
    claimFormB ("[+0]".data) = false ∧
    getSpecs ("[18446744073709551616]".data) =
      .error (.InvalidInteger ("18446744073709551616".data)) ∧
    claimFormB ("[18446744073709551616]".data) = true := by
  refine ⟨by decide, by decide, by decide, by decide⟩

/-- C7 (amended): `get_specs` succeeds exactly on `'['` + a comma-separated
list of Rust-`usize` tokens (optional `'+'`, then one or more decimal digits,
value below `2^64`) + `']'`, and then returns the token values in order. -/
theorem claim_C7_get_specs (s : List Char) :
    ((∃ v, getSpecs s = .ok v) ↔ amendedFormB s = true) ∧
    (amendedFormB s = true → getSpecs s = .ok (amendedVals s)) :=
  getSpecs_ok_iff s

/-- Witness for C7 (amended) at the documented example `"[2,1]"`. -/
theorem claim_C7_witness :
    amendedFormB ("[2,1]".data) = true ∧
      getSpecs ("[2,1]".data) = .ok (amendedVals ("[2,1]".data)) :=
  ⟨by decide, (claim_C7_get_specs ("[2,1]".data)).2 (by decide)⟩

/-- C8: deriving the column-major view twice gives back any rectangular grid
(the derivation is taken with the grid's own dimensions, as `is_valid` does
with `length` and then `height`). -/
theorem claim_C8_transpose_involution (g : List (List Cell)) (l : Nat)
    (h : ∀ r, r ∈ g → r.length = l) :
    transpose g.length (transpose l g) = g := by
  unfold transpose
  apply List.ext_getElem
  · simp
  · intro y hy1 hy2
    have hy3 : y < (List.range g.length).length := by simpa using hy2
    rw [List.getElem_map]
    rw [List.getElem_range]
    rw [List.map_map]
    apply List.ext_getElem
    · simp [h g[y] (List.getElem_mem hy2)]
    · intro x hx1 hx2
      have hx3 : x < l := by
        have := h g[y] (List.getElem_mem hy2)
        omega
      rw [List.getElem_map]
      rw [List.getElem_range]
      show (g.map (fun r => r.getD x Cell.Unknown)).getD y Cell.Unknown = g[y][x]
      rw [List.getD_eq_getElem _ _ (by simpa using hy2), List.getElem_map]
      rw [List.getD_eq_getElem _ _ hx2]

/-- Witness for C8 at a concrete 1×2 grid. -/
theorem claim_C8_witness :
    transpose 1 (transpose 2 [[Cell.Black, Cell.White]]) = [[Cell.Black, Cell.White]] :=
  claim_C8_transpose_involution [[Cell.Black, Cell.White]] 2 (by decide)

/-- C9: with positive dimensions and non-empty spec lists, rendering fails
(panics) whenever `row_spec` or `cells` has fewer than `height` entries, and
succeeds otherwise — the renderer's effective precondition is stronger than
`height ≠ 0 ∧ length ≠ 0`. -/
theorem claim_C9_render_precondition (p : Picross)
    (h0 : 0 < p.height) (h1 : 0 < p.length)
    (hrs : ¬ p.row_spec = []) (hcs : ¬ p.col_spec = []) :
    ((p.row_spec.length < p.height ∨ p.cells.length < p.height) → to_stringOpt p = none) ∧
    (p.height ≤ p.row_spec.length → p.height ≤ p.cells.length →
      ∃ s, to_stringOpt p = some s) :=
  ⟨render_none_aux p hrs hcs, fun ha hb => render_some_aux p hrs hcs ha hb⟩

/-- Witness for C9: a too-short `row_spec` makes rendering fail; in-bounds
lists make it succeed. -/
theorem claim_C9_witness :
    to_stringOpt (Picross.mk 2 1 [[1]] [[1]] [[Cell.Black], [Cell.Black]]) = none ∧
    ∃ s, to_stringOpt (Picross.mk 1 1 [[1]] [[1]] [[Cell.Black]]) = some s :=
  ⟨(claim_C9_render_precondition (Picross.mk 2 1 [[1]] [[1]] [[Cell.Black], [Cell.Black]])
      (by decide) (by decide) (by decide) (by decide)).1 (Or.inl (by decide)),
   (claim_C9_render_precondition (Picross.mk 1 1 [[1]] [[1]] [[Cell.Black]])
      (by decide) (by decide) (by decide) (by decide)).2 (by decide) (by decide)⟩

/-- C10: a run length of `0` in any row or column clue makes the board invalid:
runs compared by the matcher are always non-empty, so a `0` entry can never be
matched. -/
theorem claim_C10_zero_clue (p : Picross) (clue : List Nat)
    (hmem : clue ∈ p.row_spec ∨ clue ∈ p.col_spec) (h0 : 0 ∈ clue) :
    is_valid p = false := by
  have hbool := Bool.eq_false_or_eq_true (is_valid p)
  rcases hbool with hb | hb
  · exfalso
    obtain ⟨hc1, hc2, hc3, hc4, _, hrow, hcol⟩ := (is_valid_iff_aux p).1 hb
    rcases hmem with hm | hm
    · rcases List.mem_iff_getElem.1 hm with ⟨y, hy, hyc⟩
      have hy2 : y < p.height := by omega
      have hr := hrow y hy2
      have hgd : p.row_spec.getD y [] = clue := by
        rw [List.getD_eq_getElem _ _ hy, hyc]
      rw [hgd] at hr
      have : (0 : Nat) ∈ runAux (p.cells.getD y []) 0 := by
        rw [show runAux (p.cells.getD y []) 0 = runLengths (p.cells.getD y []) from rfl, hr]
        exact h0
      exact absurd (runAux_pos _ 0 0 this) (lt_irrefl 0)
    · rcases List.mem_iff_getElem.1 hm with ⟨x, hx, hxc⟩
      have hx2 : x < p.length := by omega
      have hc := hcol x hx2
      have hgd : p.col_spec.getD x [] = clue := by
        rw [List.getD_eq_getElem _ _ hx, hxc]
      rw [hgd] at hc
      have : (0 : Nat) ∈ runAux (p.cells.map (fun r => r.getD x Cell.Unknown)) 0 := by
        rw [show runAux (p.cells.map (fun r => r.getD x Cell.Unknown)) 0 =
          runLengths (p.cells.map (fun r => r.getD x Cell.Unknown)) from rfl, hc]
        exact h0
      exact absurd (runAux_pos _ 0 0 this) (lt_irrefl 0)
  · exact hb

/-- Witness for C10 at a concrete board with a `0` entry in a row clue. -/
theorem claim_C10_witness :
    is_valid (Picross.mk 1 1 [[0]] [[1]] [[Cell.Black]]) = false :=
  claim_C10_zero_clue (Picross.mk 1 1 [[0]] [[1]] [[Cell.Black]]) [0]
    (Or.inl (by decide)) (by decide)

/-- Witness for C1 at the documented 2×4 valid board. -/
theorem claim_C1_witness :
    is_valid (Picross.mk 2 4 [[2, 1], [3]] [[1], [2], [1], [2]]
      [[Cell.Black, Cell.Black, Cell.White, Cell.Black],
       [Cell.White, Cell.Black, Cell.Black, Cell.Black]]) = true :=
  (claim_C1_is_valid_iff (Picross.mk 2 4 [[2, 1], [3]] [[1], [2], [1], [2]]
      [[Cell.Black, Cell.Black, Cell.White, Cell.Black],
       [Cell.White, Cell.Black, Cell.Black, Cell.Black]])).2 (by decide)

/-- Witness for C6 at a deliberately inconsistent board (ragged rows). -/
theorem claim_C6_witness :
    is_validOpt (Picross.mk 42 24 [[1]] [[1]] [[Cell.Black]]) =
      some (is_valid (Picross.mk 42 24 [[1]] [[1]] [[Cell.Black]])) :=
  claim_C6_is_valid_total (Picross.mk 42 24 [[1]] [[1]] [[Cell.Black]])
